import Mathlib

/-!
Shallow embedding of `src/extractcontent.py` (the `rmcscrape` metadata
extractor).  HTML documents are modelled as rose trees of element and text
nodes; BeautifulSoup queries (`select`, `find_all`, `.title`, `.text`,
attribute access) are modelled as functions over that tree.  Python strings
are Lean `String`s (the script is Python 2, so `\s` and `\d` are the ASCII
classes).  Fallible operations (`None.text` → AttributeError, `tag['href']`
→ KeyError, unreadable file → IOError) return `Except PyErr`.  The
module-level variable `f` that `snarf_file` reads (line 85 of the source)
is modelled as an explicit first argument `f`, distinct from the `fname`
parameter.
-/

/-- Python 2 ASCII `\s` class: space, tab, newline, CR, FF, VT. -/
def isWS (c : Char) : Bool :=
  c == ' ' || c == '\t' || c == '\n' || c == '\r' || c == '\x0b' || c == '\x0c'

/-- Python 2 ASCII `\d` class. -/
def isDig (c : Char) : Bool :=
  '0' ≤ c && c ≤ '9'

/-- Model of `re.sub(r'\s+', ' ', text)` on a character list: each maximal run of
whitespace becomes a single space.  The flag records whether the previous
character was inside a whitespace run. -/
def subWS : Bool → List Char → List Char
  | _, [] => []
  | prevWS, c :: cs =>
    if isWS c then
      if prevWS then subWS true cs else ' ' :: subWS true cs
    else
      c :: subWS false cs

/-- Python `str.strip()`: drop whitespace from both ends. -/
def pyStrip (l : List Char) : List Char :=
  (((l.dropWhile isWS).reverse.dropWhile isWS)).reverse

/-- Function `clean_text` from the source: `re.sub(r'\s+', ' ', text).strip()`. -/
def clean_text (text : String) : String :=
  ⟨pyStrip (subWS false text.data)⟩

/-- Model of `re.search(r'\d+', s)`: the leftmost maximal digit run, if any. -/
def firstDigitRunAux : List Char → Option String
  | [] => none
  | c :: cs => if isDig c then some ⟨c :: cs.takeWhile isDig⟩ else firstDigitRunAux cs

def firstDigitRun (s : String) : Option String :=
  firstDigitRunAux s.data

/-- Does `pat` occur as the first characters of `l`, and if so what follows? -/
def dropLit : List Char → List Char → Option (List Char)
  | [], l => some l
  | _, [] => none
  | p :: ps, c :: cs => if p == c then dropLit ps cs else none

/-- Model of `re.search(r'abstract-paper-(?P<legacyid>\d+)', s)`: leftmost position
where the literal is followed by at least one digit; returns the maximal
digit run captured there. -/
def findAP : List Char → Option String
  | [] => none
  | c :: cs =>
    match dropLit "abstract-paper-".data (c :: cs) with
    | some rest =>
      match rest.takeWhile isDig with
      | [] => findAP cs
      | d :: ds => some ⟨d :: ds⟩
    | none => findAP cs

/-- Split on whitespace runs (how a `class` attribute is tokenised). -/
def wsTokensAux : List Char → List Char → List String
  | [], cur => if cur.isEmpty then [] else [⟨cur.reverse⟩]
  | c :: cs, cur =>
    if isWS c then
      if cur.isEmpty then wsTokensAux cs [] else ⟨cur.reverse⟩ :: wsTokensAux cs []
    else
      wsTokensAux cs (c :: cur)

def wsTokens (s : String) : List String :=
  wsTokensAux s.data []

/-- An HTML node: an element with tag, attributes and children, or text. -/
inductive Node where
  | text (s : String)
  | elem (tag : String) (attrs : List (String × String)) (children : List Node)

/-- A parsed document is the forest of top-level nodes. -/
def Document := List Node

/-- Python-side exceptions that the script can raise. -/
inductive PyErr where
  | attributeError
  | keyError
  | ioError
deriving DecidableEq, Repr

mutual
/-- Pre-order traversal of a node and its descendants (BeautifulSoup's
document order for `find_all` / `select`). -/
def preorderN : Node → List Node
  | .text s => [Node.text s]
  | .elem t a cs => Node.elem t a cs :: preorderF cs
def preorderF : List Node → List Node
  | [] => []
  | n :: ns => preorderN n ++ preorderF ns
end

mutual
/-- Model of `.text` of a tag: concatenation of all descendant text. -/
def textN : Node → List Char
  | .text s => s.data
  | .elem _ _ cs => textF cs
def textF : List Node → List Char
  | [] => []
  | n :: ns => textN n ++ textF ns
end

/-- Value of `.text` as a `String`. -/
def textOf (n : Node) : String := ⟨textN n⟩

def isTag (n : Node) (t : String) : Bool :=
  match n with
  | .elem tg _ _ => tg == t
  | .text _ => false

/-- Attribute lookup on an element; `none` on a text node or missing key. -/
def getAttr (n : Node) (k : String) : Option String :=
  match n with
  | .elem _ attrs _ => attrs.lookup k
  | .text _ => none

def hasId (n : Node) (v : String) : Bool :=
  getAttr n "id" == some v

/-- CSS `.cls` matching: the `class` attribute split on whitespace contains
the token. -/
def hasClass (n : Node) (cls : String) : Bool :=
  match getAttr n "class" with
  | some v => (wsTokens v).contains cls
  | none => false

def childrenOf : Node → List Node
  | .elem _ _ cs => cs
  | .text _ => []

/-- Proper descendants of a node, in document order (what `tag.select`
searches). -/
def descendantsOf (n : Node) : List Node :=
  preorderF (childrenOf n)

/-- Model of `soup.select('tagP#idV > tagC')`: direct `tagC` children of each
matching parent, in document order. -/
def selectIdChild (doc : Document) (tagP idV tagC : String) : List Node :=
  (((preorderF doc).filter fun n => isTag n tagP && hasId n idV).map
    fun p => (childrenOf p).filter fun c => isTag c tagC).flatten

/-- Model of `tag.select('t.cls')`: descendant elements of `n` with tag `t` and class
token `cls`. -/
def selectTagClass (n : Node) (t cls : String) : List Node :=
  (descendantsOf n).filter fun d => isTag d t && hasClass d cls

/-- Model of `soup.title`: the first `<title>` element in document order. -/
def findTitle (doc : Document) : Option Node :=
  ((preorderF doc).filter fun n => isTag n "title").head?

/-- Per-coder sub-mapping: the optional `affiliation` and `country` keys. -/
structure CoderInfo where
  affiliation : Option String
  country : Option String
deriving DecidableEq, Repr

/-- The three keys `get_journal_data` may produce. -/
structure JournalData where
  journal : Option String
  legacyid : Option String
  article_url : Option String
deriving DecidableEq, Repr

/-- The output mapping of `snarf_file`.  Every key of the Python dict is an
`Option` field; `none` means the key is absent.  `coders` is an ordered
association list. -/
structure Record where
  title : Option String := none
  abstract : Option String := none
  explanatory_text : Option String := none
  names : Option (List String) := none
  journal : Option String := none
  legacyid : Option String := none
  article_url : Option String := none
  coders : Option (List (String × CoderInfo)) := none
  legacy_id : Option String := none
deriving DecidableEq, Repr

/-- The empty dict `{}` returned when no digit run is found. -/
def emptyRecord : Record := {}

/-- Model of `soup.find_all("div", style="width: 180px; float: left;")`. -/
def coderBlocks (doc : Document) : List Node :=
  (preorderF doc).filter fun n =>
    isTag n "div" && getAttr n "style" == some "width: 180px; float: left;"

/-- One iteration of the `get_coders` loop over a coder div, acting on the
accumulated association list.  `coders` is a `defaultdict(dict)`: an entry
is created only when an `affiliation` or `country` assignment touches it. -/
def coderStep (acc : List (String × CoderInfo)) (div : Node) :
    List (String × CoderInfo) :=
  match selectTagClass div "p" "name" with
  | [] => acc
  | n0 :: _ =>
    let name := clean_text (textOf n0)
    if (acc.lookup name).isSome then acc
    else
      let affs := selectTagClass div "p" "affiliation"
      let ctys := selectTagClass div "p" "country"
      match affs, ctys with
      | [], [] => acc
      | _, _ =>
        acc ++ [(name,
          { affiliation := affs.head?.map fun a => clean_text (textOf a)
            country := ctys.head?.map fun c => clean_text (textOf c) })]

/-- Function `get_coders` from the source. -/
def get_coders (doc : Document) : List (String × CoderInfo) :=
  (coderBlocks doc).foldl coderStep []

/-- Function `get_names` from the source: `soup.select('div#author-names > span')`,
each span's text collapsed. -/
def get_names (doc : Document) : List String :=
  (selectIdChild doc "div" "author-names" "span").map fun n =>
    clean_text (textOf n)

/-- Model of `soup.select('div#journal > span')`. -/
def journalSpans (doc : Document) : List Node :=
  selectIdChild doc "div" "journal" "span"

/-- Anchors inside the journal span (`journal.select('a')`). -/
def anchorsOf (sp : Node) : List Node :=
  (descendantsOf sp).filter fun d => isTag d "a"

/-- One iteration of the `get_journal_data` link loop.  `link['href']`
raises `KeyError` when the attribute is missing. -/
def journalStep (d : JournalData) (link : Node) : Except PyErr JournalData :=
  match getAttr link "href" with
  | none => .error .keyError
  | some href =>
    match findAP href.data with
    | some ds => .ok { d with legacyid := some ds }
    | none => .ok { d with article_url := some href }

/-- Function `get_journal_data` from the source. -/
def get_journal_data (doc : Document) : Except PyErr JournalData :=
  match journalSpans doc with
  | [] => .ok ⟨none, none, none⟩
  | sp :: _ =>
    (anchorsOf sp).foldlM journalStep
      ⟨some (clean_text (textOf sp)), none, none⟩

/-- Function `get_abstract` from the source:
`soup.select('div#abstract-paper-' + legacy_id + ' > div.middle-abstract-paper')`. -/
def get_abstract (doc : Document) (legacy_id : String) : String :=
  match (((preorderF doc).filter fun n =>
      isTag n "div" && hasId n ("abstract-paper-" ++ legacy_id)).map fun p =>
      (childrenOf p).filter fun c =>
        isTag c "div" && hasClass c "middle-abstract-paper").flatten with
  | [] => ""
  | r :: _ => clean_text (textOf r)

/-- Function `get_explanatory_text` from the source:
`soup.find_all(id='top-resume-code', limit=1)`. -/
def get_explanatory_text (doc : Document) : String :=
  match (preorderF doc).filter (fun n => getAttr n "id" == some "top-resume-code") with
  | [] => ""
  | r :: _ => clean_text (textOf r)

/-- Function `snarf_file` from the source.  `f` is the module-level variable the
digit search reads (`re.search(r'\d+', f)` on line 85); `fname` is the
parameter actually opened; `fs` maps a path to its parsed document, `none`
standing for an unreadable or unparsable file. -/
def snarf_file (f fname : String) (fs : String → Option Document) :
    Except PyErr Record :=
  match firstDigitRun f with
  | none => .ok emptyRecord
  | some legacy_id =>
    match fs fname with
    | none => .error .ioError
    | some soup =>
      match findTitle soup with
      | none => .error .attributeError
      | some t =>
        match get_journal_data soup with
        | .error e => .error e
        | .ok jd =>
          .ok { title := some (textOf t)
                abstract := some (get_abstract soup legacy_id)
                explanatory_text := some (get_explanatory_text soup)
                names := some (get_names soup)
                journal := jd.journal
                legacyid := jd.legacyid
                article_url := jd.article_url
                coders := some (get_coders soup)
                legacy_id := some legacy_id }

/-- The `__main__` loop: `for f in args.files: datalist.append(snarf_file(f))`.
The loop variable `f` is the module-level `f` that `snarf_file` reads, so
each call receives the current path as both the global and the argument.
Any raised exception propagates and aborts the run. -/
def runDriver (files : List String) (fs : String → Option Document) :
    Except PyErr (List Record) :=
  match files with
  | [] => .ok []
  | f :: rest =>
    match snarf_file f f fs with
    | .error e => .error e
    | .ok d =>
      match runDriver rest fs with
      | .error e => .error e
      | .ok ds => .ok (d :: ds)

/-- The run's side effect: `results.json` holds the list on success, and no
file is written when an exception aborts the loop. -/
def driverOutput (files : List String) (fs : String → Option Document) :
    Option (List Record) :=
  match runDriver files fs with
  | .ok l => some l
  | .error _ => none

deriving instance DecidableEq for Except

/-! ### Specification-side descriptions and auxiliary predicates -/

/-- The last element of `l` when it has one, else `d` (the value an
overwrite loop leaves behind). -/
def lastOr : List String → Option String → Option String
  | [], d => d
  | x :: xs, _ => lastOr xs (some x)

/-- The captured digit runs of the anchors whose `href` matches
`abstract-paper-(\d+)`, in order. -/
def hrefCaptures (links : List Node) : List String :=
  links.filterMap fun a => (getAttr a "href").bind fun h => findAP h.data

/-- The `href` values of the anchors that do not match the pattern, in
order. -/
def hrefNonMatches (links : List Node) : List String :=
  links.filterMap fun a => (getAttr a "href").bind fun h =>
    match findAP h.data with
    | some _ => none
    | none => some h

/-- The entry a coder div would insert on its own: its collapsed name
together with the first affiliation/country paragraphs, or `none` when the
div has no name paragraph or has neither an affiliation nor a country
paragraph. -/
def blockEntry (div : Node) : Option (String × CoderInfo) :=
  match selectTagClass div "p" "name" with
  | [] => none
  | n0 :: _ =>
    match selectTagClass div "p" "affiliation", selectTagClass div "p" "country" with
    | [], [] => none
    | affs, ctys =>
      some (clean_text (textOf n0),
        { affiliation := affs.head?.map fun a => clean_text (textOf a)
          country := ctys.head?.map fun c => clean_text (textOf c) })

/-- The keys of an association list, in order. -/
def keysOf (l : List (String × CoderInfo)) : List String := l.map Prod.fst

/-- Every anchor under the first `div#journal > span` has an `href`
attribute (vacuously true when there is no such span). -/
def allHrefs (doc : Document) : Bool :=
  match journalSpans doc with
  | [] => true
  | sp :: _ => (anchorsOf sp).all fun a => (getAttr a "href").isSome

/-- Some anchor under the first `div#journal > span` lacks `href`. -/
def someMissingHref (doc : Document) : Bool :=
  match journalSpans doc with
  | [] => false
  | sp :: _ => (anchorsOf sp).any fun a => (getAttr a "href").isNone

/-- Every whitespace character of `l` is a plain space. -/
def wsOnlySpace (l : List Char) : Prop :=
  ∀ c ∈ l, isWS c = true → c = ' '

/-- No two adjacent characters of `l` are both whitespace. -/
def noAdjWS (l : List Char) : Prop :=
  l.Chain' fun a b => ¬(isWS a = true ∧ isWS b = true)

/-- The first character of `l`, when it exists, is not whitespace. -/
def headNoWS (l : List Char) : Prop :=
  ∀ c ∈ l.head?, isWS c = false

/-! ### Concrete documents used as witnesses and counterexamples -/

/-- The `#journal > span` of the sample document: text plus the two anchors
from the spec's journal example. -/
def span42 : Node :=
  .elem "span" [] [
    .text "Great Journal ",
    .elem "a" [("href", "#abstract-paper-42")] [.text "Abstract"],
    .elem "a" [("href", "http://example.com/paper.pdf"), ("target", "_blank"),
               ("class", "link")] [.text "Paper"]]

/-- A sample legacy page exercising every extracted field. -/
def doc42 : Document :=
  [ .elem "html" [] [
      .elem "head" [] [.elem "title" [] [.text "Test Paper"]],
      .elem "body" [] [
        .elem "div" [("id", "author-names")] [
          .elem "span" [] [.text "A.  One"],
          .elem "span" [] [.text " B. Two "]],
        .elem "div" [("id", "journal")] [span42],
        .elem "div" [("id", "abstract-paper-62")] [
          .elem "div" [("class", "middle-abstract-paper")] [.text "  An   abstract.  "]],
        .elem "div" [("id", "top-resume-code")] [.text " some  notes "],
        .elem "div" [("style", "width: 180px; float: left;")] [
          .elem "img" [] [],
          .elem "div" [] [
            .elem "p" [("class", "name")] [.text "Jane  Coder"],
            .elem "p" [("class", "affiliation")] [.text "Uni"],
            .elem "p" [("class", "country")] [.text "France"]]]]]]

/-- A filesystem in which every path holds the sample page. -/
def fs42 : String → Option Document := fun _ => some doc42

/-- The record `snarf_file` extracts from `doc42` under a path whose first
digit run is `62`. -/
def rec42full : Record :=
  { title := some "Test Paper"
    abstract := some "An abstract."
    explanatory_text := some "some notes"
    names := some ["A. One", "B. Two"]
    journal := some "Great Journal AbstractPaper"
    legacyid := some "42"
    article_url := some "http://example.com/paper.pdf"
    coders := some [("Jane Coder", ⟨some "Uni", some "France"⟩)]
    legacy_id := some "62" }

/-- A document with no `<title>` element. -/
def docNoTitle : Document := [.elem "div" [] [.text "x"]]

/-- A document whose journal span holds an anchor without `href`. -/
def docHrefless : Document :=
  [ .elem "title" [] [.text "T"],
    .elem "div" [("id", "journal")] [
      .elem "span" [] [.elem "a" [] [.text "Abstract"]]]]

/-- A coder div with a name paragraph but no affiliation or country. -/
def coderDivA1 : Node :=
  .elem "div" [("style", "width: 180px; float: left;")] [
    .elem "p" [("class", "name")] [.text "A"]]

/-- A coder div with the same name, now carrying a country. -/
def coderDivA2 : Node :=
  .elem "div" [("style", "width: 180px; float: left;")] [
    .elem "p" [("class", "name")] [.text "A"],
    .elem "p" [("class", "country")] [.text "France"]]

/-- A minimal document with a title and no journal span. -/
def docMin : Document := [.elem "title" [] [.text "T"]]

def fsMin : String → Option Document := fun _ => some docMin

/-- The record extracted from `docMin` under legacy id `62`. -/
def recMin : Record :=
  { title := some "T"
    abstract := some ""
    explanatory_text := some ""
    names := some []
    coders := some []
    legacy_id := some "62" }

/-- A two-file input list: one path with digits, one without. -/
def files2 : List String := ["site.do?siteId=62", "nodigits"]

/-- The driver's output list for `files2` over `fs42`. -/
def out2 : List Record := [rec42full, emptyRecord]

/-! ### Helper lemmas -/

theorem lookup_append {l₁ l₂ : List (String × CoderInfo)} (a : String) :
    (l₁ ++ l₂).lookup a =
      match l₁.lookup a with
      | some v => some v
      | none => l₂.lookup a := by
  induction l₁ with
  | nil => simp
  | cons p rest ih =>
    obtain ⟨k, v⟩ := p
    by_cases h : a = k
    · simp [List.lookup, h]
    · have hk : (a == k) = false := by simpa using h
      simp [List.lookup, hk, ih]

theorem lookup_none_iff (l : List (String × CoderInfo)) (a : String) :
    l.lookup a = none ↔ a ∉ keysOf l := by
  induction l with
  | nil => simp [keysOf]
  | cons p rest ih =>
    obtain ⟨k, v⟩ := p
    by_cases h : a = k
    · simp [List.lookup, h, keysOf]
    · have hk : (a == k) = false := by simpa using h
      simp [List.lookup, hk, keysOf, h, ih, keysOf]

theorem subWS_wsOnlySpace : ∀ (b : Bool) (l : List Char), wsOnlySpace (subWS b l) := by
  intro b l
  induction l generalizing b with
  | nil => intro c hc; simp [subWS] at hc
  | cons c cs ih =>
    intro x hx hwx
    by_cases hc : isWS c = true
    · cases b with
      | true =>
        simp only [subWS, hc, if_true] at hx
        exact ih true x hx hwx
      | false =>
        simp only [subWS, hc, if_true] at hx
        rcases List.mem_cons.mp hx with h | h
        · exact h
        · exact ih true x h hwx
    · simp only [subWS, hc] at hx
      rcases List.mem_cons.mp hx with h | h
      · subst h; simp [hc] at hwx
      · exact ih false x h hwx

theorem subWS_true_headNoWS : ∀ l : List Char, headNoWS (subWS true l) := by
  intro l
  induction l with
  | nil => intro c hc; simp [subWS] at hc
  | cons c cs ih =>
    by_cases hc : isWS c = true
    · simpa [subWS, hc] using ih
    · intro x hx
      simp only [subWS, hc, if_neg, Bool.false_eq_true, if_false] at hx
      simp only [List.head?_cons, Option.mem_def, Option.some.injEq] at hx
      subst hx
      simpa using hc

theorem subWS_noAdjWS : ∀ (b : Bool) (l : List Char), noAdjWS (subWS b l) := by
  intro b l
  induction l generalizing b with
  | nil => simp [subWS, noAdjWS]
  | cons c cs ih =>
    by_cases hc : isWS c = true
    · cases b with
      | true => simpa [subWS, hc] using ih true
      | false =>
        simp only [subWS, hc, if_true, Bool.false_eq_true, if_false]
        rw [noAdjWS, List.chain'_cons']
        refine ⟨?_, ih true⟩
        intro y hy
        have := subWS_true_headNoWS cs y hy
        simp [this]
    · simp only [subWS, hc, Bool.false_eq_true, if_false]
      rw [noAdjWS, List.chain'_cons']
      refine ⟨?_, ih false⟩
      intro y hy
      simp [hc]

theorem subWS_id : ∀ (l : List Char) (b : Bool), wsOnlySpace l → noAdjWS l →
    (b = true → headNoWS l) → subWS b l = l := by
  intro l
  induction l with
  | nil => intro b _ _ _; simp [subWS]
  | cons c cs ih =>
    intro b hws hadj hhead
    by_cases hc : isWS c = true
    · cases b with
      | true =>
        have := hhead rfl c (by simp)
        simp [hc] at this
      | false =>
        have hcsp : c = ' ' := hws c (by simp) hc
        have htail : subWS true cs = cs := by
          refine ih true (fun x hx => hws x (List.mem_cons_of_mem _ hx)) ?_ ?_
          · exact (List.chain'_cons'.mp hadj).2
          · intro _
            intro y hy
            have hrel := (List.chain'_cons'.mp hadj).1 y hy
            by_contra hwy
            simp only [Bool.not_eq_false] at hwy
            exact hrel ⟨hc, hwy⟩
        subst hcsp
        have hsp : isWS ' ' = true := by decide
        simp [subWS, hsp, htail]
    · have htail : subWS false cs = cs := by
        refine ih false (fun x hx => hws x (List.mem_cons_of_mem _ hx))
          (List.chain'_cons'.mp hadj).2 (by simp)
      simp [subWS, hc, htail]

theorem headNoWS_dropWhile (l : List Char) : headNoWS (l.dropWhile isWS) := by
  induction l with
  | nil => intro c hc; simp at hc
  | cons c cs ih =>
    by_cases hc : isWS c = true
    · simpa [List.dropWhile, hc] using ih
    · intro x hx
      simp only [List.dropWhile, hc, Bool.false_eq_true] at hx
      simp only [List.head?_cons, Option.mem_def, Option.some.injEq] at hx
      subst hx
      simpa using hc

theorem dropWhile_eq_self_of_headNoWS {l : List Char} (h : headNoWS l) :
    l.dropWhile isWS = l := by
  cases l with
  | nil => rfl
  | cons c cs =>
    have := h c (by simp)
    simp [List.dropWhile, this]

theorem noAdjWS_reverse {l : List Char} (h : noAdjWS l) : noAdjWS l.reverse := by
  rw [noAdjWS, List.chain'_reverse]
  exact h.imp fun _ _ hab hba => hab ⟨hba.2, hba.1⟩

theorem wsOnlySpace_of_subset {l₁ l₂ : List Char} (hsub : l₁ ⊆ l₂)
    (h : wsOnlySpace l₂) : wsOnlySpace l₁ :=
  fun c hc hw => h c (hsub hc) hw

theorem headNoWS_of_isPrefix {l₁ l₂ : List Char} (hp : l₁ <+: l₂)
    (h : headNoWS l₂) : headNoWS l₁ := by
  cases l₁ with
  | nil => intro c hc; simp at hc
  | cons c cs =>
    obtain ⟨t, ht⟩ := hp
    intro x hx
    simp only [List.head?_cons, Option.mem_def, Option.some.injEq] at hx
    subst hx
    apply h
    rw [← ht]
    simp

theorem pyStrip_props (l : List Char) (hws : wsOnlySpace l) (hadj : noAdjWS l) :
    wsOnlySpace (pyStrip l) ∧ noAdjWS (pyStrip l) ∧ headNoWS (pyStrip l) ∧
      headNoWS (pyStrip l).reverse := by
  set x1 := l.dropWhile isWS with hx1
  have hx1suf : x1 <:+ l := List.dropWhile_suffix isWS
  have hws1 : wsOnlySpace x1 := wsOnlySpace_of_subset hx1suf.subset hws
  have hadj1 : noAdjWS x1 := hadj.suffix hx1suf
  have hhead1 : headNoWS x1 := headNoWS_dropWhile l
  set x2 := x1.reverse.dropWhile isWS with hx2
  have hx2suf : x2 <:+ x1.reverse := List.dropWhile_suffix isWS
  have hstrip : pyStrip l = x2.reverse := rfl
  have hws2 : wsOnlySpace x2 :=
    wsOnlySpace_of_subset hx2suf.subset
      (fun c hc => hws1 c (List.mem_reverse.mp hc))
  have hadj2 : noAdjWS x2 := (noAdjWS_reverse hadj1).suffix hx2suf
  have hhead2 : headNoWS x2 := headNoWS_dropWhile x1.reverse
  have hx2rev_pre : x2.reverse <+: x1 := by
    obtain ⟨t, ht⟩ := hx2suf
    refine ⟨t.reverse, ?_⟩
    have := congrArg List.reverse ht
    simpa using this
  refine ⟨?_, ?_, ?_, ?_⟩
  · rw [hstrip]
    exact fun c hc => hws2 c (List.mem_reverse.mp hc)
  · rw [hstrip]
    exact noAdjWS_reverse hadj2
  · rw [hstrip]
    exact headNoWS_of_isPrefix hx2rev_pre hhead1
  · rw [hstrip, List.reverse_reverse]
    exact hhead2

theorem pyStrip_eq_self {l : List Char} (hh : headNoWS l) (hr : headNoWS l.reverse) :
    pyStrip l = l := by
  rw [pyStrip, dropWhile_eq_self_of_headNoWS hh, dropWhile_eq_self_of_headNoWS hr,
    List.reverse_reverse]

theorem snarf_none {f : String} (fname : String) (fs : String → Option Document)
    (h : firstDigitRun f = none) : snarf_file f fname fs = .ok emptyRecord := by
  simp [snarf_file, h]

theorem except_ok_bind {α β : Type} (a : α) (g : α → Except PyErr β) :
    (Except.ok a >>= g) = g a := rfl

theorem except_error_bind {α β : Type} (e : PyErr) (g : α → Except PyErr β) :
    ((Except.error e : Except PyErr α) >>= g) = .error e := rfl

theorem snarf_ok_legacy {f fname : String} {fs : String → Option Document}
    {rec : Record} (h : snarf_file f fname fs = .ok rec) :
    rec.legacy_id = firstDigitRun f := by
  unfold snarf_file at h
  split at h
  · cases h
    rename_i heq
    rw [heq]
    rfl
  · rename_i lid heq
    split at h
    · cases h
    · split at h
      · cases h
      · split at h
        · cases h
        · cases h
          rw [heq]

theorem journal_foldl (links : List Node) (d : JournalData)
    (h : ∀ a ∈ links, (getAttr a "href").isSome) :
    links.foldlM journalStep d =
      .ok ⟨d.journal, lastOr (hrefCaptures links) d.legacyid,
           lastOr (hrefNonMatches links) d.article_url⟩ := by
  induction links generalizing d with
  | nil => rfl
  | cons a rest ih =>
    have ha : (getAttr a "href").isSome := h a (by simp)
    obtain ⟨href, hhref⟩ := Option.isSome_iff_exists.mp ha
    have hrest : ∀ x ∈ rest, (getAttr x "href").isSome :=
      fun x hx => h x (List.mem_cons_of_mem _ hx)
    cases hf : findAP href.data with
    | some ds =>
      have hstep : journalStep d a = .ok { d with legacyid := some ds } := by
        simp [journalStep, hhref, hf]
      rw [List.foldlM_cons, hstep, except_ok_bind, ih _ hrest]
      simp [hrefCaptures, hrefNonMatches, hhref, hf, lastOr]
    | none =>
      have hstep : journalStep d a = .ok { d with article_url := some href } := by
        simp [journalStep, hhref, hf]
      rw [List.foldlM_cons, hstep, except_ok_bind, ih _ hrest]
      simp [hrefCaptures, hrefNonMatches, hhref, hf, lastOr]

theorem journal_foldl_err (links : List Node) (d : JournalData)
    (h : (links.any fun a => (getAttr a "href").isNone) = true) :
    links.foldlM journalStep d = .error .keyError := by
  induction links generalizing d with
  | nil => simp at h
  | cons a rest ih =>
    cases ha : getAttr a "href" with
    | none =>
      have hstep : journalStep d a = .error .keyError := by
        simp [journalStep, ha]
      rw [List.foldlM_cons, hstep, except_error_bind]
    | some href =>
      have hrest : (rest.any fun x => (getAttr x "href").isNone) = true := by
        simp only [List.any_cons, ha, Option.isNone_some, Bool.false_or] at h
        exact h
      cases hf : findAP href.data with
      | some ds =>
        have hstep : journalStep d a = .ok { d with legacyid := some ds } := by
          simp [journalStep, ha, hf]
        rw [List.foldlM_cons, hstep, except_ok_bind, ih _ hrest]
      | none =>
        have hstep : journalStep d a = .ok { d with article_url := some href } := by
          simp [journalStep, ha, hf]
        rw [List.foldlM_cons, hstep, except_ok_bind, ih _ hrest]

theorem coderStep_of_blockEntry_none {acc : List (String × CoderInfo)} {div : Node}
    (h : blockEntry div = none) : coderStep acc div = acc := by
  unfold blockEntry at h
  unfold coderStep
  cases hn : selectTagClass div "p" "name" with
  | nil => rfl
  | cons n0 rest =>
    rw [hn] at h
    cases ha : selectTagClass div "p" "affiliation" with
    | nil =>
      cases hc : selectTagClass div "p" "country" with
      | nil => simp [ha, hc]
      | cons c cr => rw [ha, hc] at h; simp at h
    | cons a ar =>
      rw [ha] at h
      cases hc : selectTagClass div "p" "country" <;> rw [hc] at h <;> simp at h

theorem coderStep_of_blockEntry_some {acc : List (String × CoderInfo)} {div : Node}
    {n : String} {e : CoderInfo} (h : blockEntry div = some (n, e)) :
    coderStep acc div = if (acc.lookup n).isSome then acc else acc ++ [(n, e)] := by
  unfold blockEntry at h
  unfold coderStep
  cases hn : selectTagClass div "p" "name" with
  | nil => rw [hn] at h; simp at h
  | cons n0 rest =>
    rw [hn] at h
    cases ha : selectTagClass div "p" "affiliation" with
    | nil =>
      cases hc : selectTagClass div "p" "country" with
      | nil => rw [ha, hc] at h; simp at h
      | cons c cr =>
        rw [ha, hc] at h
        simp only [Option.some.injEq, Prod.mk.injEq] at h
        obtain ⟨hname, hinfo⟩ := h
        subst hname
        subst hinfo
        simp [ha, hc]
    | cons a ar =>
      rw [ha] at h
      cases hc : selectTagClass div "p" "country" <;> rw [hc] at h <;>
        simp only [Option.some.injEq, Prod.mk.injEq] at h <;>
        obtain ⟨hname, hinfo⟩ := h <;>
        subst hname <;> subst hinfo <;> simp [ha, hc]

theorem coders_foldl_lookup (blocks : List Node) (acc : List (String × CoderInfo))
    (name : String) :
    (blocks.foldl coderStep acc).lookup name =
      match acc.lookup name with
      | some v => some v
      | none =>
        ((blocks.filterMap blockEntry).find? fun p => p.1 == name).map Prod.snd := by
  induction blocks generalizing acc with
  | nil => cases h : acc.lookup name <;> simp [h]
  | cons div rest ih =>
    rw [List.foldl_cons]
    cases hb : blockEntry div with
    | none =>
      rw [coderStep_of_blockEntry_none hb, ih]
      simp [List.filterMap_cons, hb]
    | some p =>
      obtain ⟨n, e⟩ := p
      rw [coderStep_of_blockEntry_some hb]
      by_cases hmem : (acc.lookup n).isSome
      · rw [if_pos hmem, ih]
        simp only [List.filterMap_cons, hb]
        cases hl : acc.lookup name with
        | some v => simp
        | none =>
          have hne : (n == name) = false := by
            by_contra hcontra
            simp only [Bool.not_eq_false, beq_iff_eq] at hcontra
            subst hcontra
            rw [hl] at hmem
            simp at hmem
          simp [List.find?, hne]
      · rw [if_neg hmem, ih, lookup_append]
        simp only [List.filterMap_cons, hb]
        cases hl : acc.lookup name with
        | some v => simp
        | none =>
          by_cases hne : n = name
          · subst hne
            simp [List.lookup, List.find?]
          · have h1 : (name == n) = false := by
              simp only [beq_eq_false_iff_ne, ne_eq]
              exact fun hx => hne hx.symm
            have h2 : (n == name) = false := by simpa using hne
            simp [List.lookup, List.find?, h1, h2]

theorem coders_foldl_nodup (blocks : List Node) (acc : List (String × CoderInfo))
    (h : (keysOf acc).Nodup) : (keysOf (blocks.foldl coderStep acc)).Nodup := by
  induction blocks generalizing acc with
  | nil => exact h
  | cons div rest ih =>
    rw [List.foldl_cons]
    cases hb : blockEntry div with
    | none => rw [coderStep_of_blockEntry_none hb]; exact ih acc h
    | some p =>
      obtain ⟨n, e⟩ := p
      rw [coderStep_of_blockEntry_some hb]
      by_cases hmem : (acc.lookup n).isSome
      · rw [if_pos hmem]; exact ih acc h
      · rw [if_neg hmem]
        apply ih
        have hn : n ∉ keysOf acc := by
          rw [← lookup_none_iff]
          exact Option.not_isSome_iff_eq_none.mp hmem
        have hkeys : keysOf (acc ++ [(n, e)]) = keysOf acc ++ [n] := by
          simp [keysOf]
        rw [hkeys, List.nodup_append]
        refine ⟨h, List.nodup_singleton n, ?_⟩
        intro a ha hmem1
        rw [List.mem_singleton] at hmem1
        subst hmem1
        exact hn ha

theorem snarf_some (f fname : String) (fs : String → Option Document)
    (lid : String) (soup : Document) (hd : firstDigitRun f = some lid)
    (hfs : fs fname = some soup) :
    snarf_file f fname fs =
      match findTitle soup with
      | none => .error .attributeError
      | some t =>
        match get_journal_data soup with
        | .error e => .error e
        | .ok jd =>
          .ok { title := some (textOf t)
                abstract := some (get_abstract soup lid)
                explanatory_text := some (get_explanatory_text soup)
                names := some (get_names soup)
                journal := jd.journal
                legacyid := jd.legacyid
                article_url := jd.article_url
                coders := some (get_coders soup)
                legacy_id := some lid } := by
  unfold snarf_file
  rw [hd, hfs]

theorem get_journal_data_ok_of_allHrefs {doc : Document} (h : allHrefs doc = true) :
    ∃ jd, get_journal_data doc = .ok jd := by
  unfold allHrefs at h
  unfold get_journal_data
  cases hs : journalSpans doc with
  | nil => exact ⟨_, rfl⟩
  | cons sp rest =>
    rw [hs] at h
    exact ⟨_, journal_foldl _ _ (List.all_eq_true.mp h)⟩

theorem get_journal_data_err {doc : Document} (h : someMissingHref doc = true) :
    get_journal_data doc = .error .keyError := by
  unfold someMissingHref at h
  unfold get_journal_data
  cases hs : journalSpans doc with
  | nil => rw [hs] at h; cases h
  | cons sp rest =>
    rw [hs] at h
    exact journal_foldl_err _ _ h

theorem runDriver_error (files : List String) (fs : String → Option Document)
    (bad : String) (e : PyErr) (hmem : bad ∈ files)
    (herr : snarf_file bad bad fs = .error e) :
    ∃ e', runDriver files fs = .error e' := by
  induction files with
  | nil => cases hmem
  | cons fhead rest ih =>
    rw [runDriver]
    cases hs : snarf_file fhead fhead fs with
    | error e0 => exact ⟨e0, rfl⟩
    | ok d =>
      rcases List.mem_cons.mp hmem with heq | hmem'
      · subst heq
        rw [herr] at hs
        cases hs
      · obtain ⟨e', he'⟩ := ih hmem'
        rw [he']
        exact ⟨e', rfl⟩

/-! ### Claim theorems -/

/-- C1: for a file name processed by the run (where the module-level `f`
holds the name being processed), a name with a digit run yields a record
whose `legacy_id` is the first digit run, and a name with no digits yields
the empty mapping without error, whatever the filesystem holds. -/
theorem snarf_legacy_id_spec (fname : String) (fs : String → Option Document) :
    (∀ s rec, firstDigitRun fname = some s → snarf_file fname fname fs = .ok rec →
      rec.legacy_id = some s) ∧
    (firstDigitRun fname = none → snarf_file fname fname fs = .ok emptyRecord) := by
  constructor
  · intro s rec hs hok
    rw [snarf_ok_legacy hok, hs]
  · intro h
    exact snarf_none fname fs h

theorem snarf_legacy_id_spec_witness :
    rec42full.legacy_id = some "62" ∧
    snarf_file "nodigits" "nodigits" (fun _ => none) = .ok emptyRecord :=
  ⟨(snarf_legacy_id_spec "site.do?siteId=62" fs42).1 "62" rec42full (by decide)
      (by decide),
    (snarf_legacy_id_spec "nodigits" (fun _ => none)).2 (by decide)⟩

/-- C2 counterexample: a document with no `<title>` makes `snarf_file`
raise `AttributeError` (`soup.title` is `None`), and an anchor without
`href` in the journal span makes it raise `KeyError` — the claim that such
documents still yield a Record is false. -/
theorem missing_element_raises_counterexample :
    snarf_file "site.do?siteId=62" "site.do?siteId=62" (fun _ => some docNoTitle) =
      .error .attributeError ∧
    snarf_file "site.do?siteId=62" "site.do?siteId=62" (fun _ => some docHrefless) =
      .error .keyError := by decide

/-- C2 amended: elements that are merely absent from selector results
(journal span, abstract block, explanatory text, author spans, coder
paragraphs) never raise — the extraction succeeds whenever a title exists
and every journal anchor has an `href` — but a missing `<title>` raises
`AttributeError` and a journal anchor without `href` raises `KeyError`. -/
theorem missing_element_behaviour (f fname : String) (fs : String → Option Document)
    (doc : Document) (lid : String) (hd : firstDigitRun f = some lid)
    (hfs : fs fname = some doc) :
    ((findTitle doc).isNone = true → snarf_file f fname fs = .error .attributeError) ∧
    ((findTitle doc).isSome = true → allHrefs doc = true →
      ∃ rec, snarf_file f fname fs = .ok rec) ∧
    ((findTitle doc).isSome = true → someMissingHref doc = true →
      snarf_file f fname fs = .error .keyError) := by
  rw [snarf_some f fname fs lid doc hd hfs]
  refine ⟨?_, ?_, ?_⟩
  · intro ht
    rw [Option.isNone_iff_eq_none] at ht
    rw [ht]
  · intro ht hh
    obtain ⟨t, htt⟩ := Option.isSome_iff_exists.mp ht
    obtain ⟨jd, hjd⟩ := get_journal_data_ok_of_allHrefs hh
    rw [htt, hjd]
    exact ⟨_, rfl⟩
  · intro ht hh
    obtain ⟨t, htt⟩ := Option.isSome_iff_exists.mp ht
    rw [htt, get_journal_data_err hh]

theorem missing_element_behaviour_witness :
    snarf_file "62" "p" (fun _ => some docHrefless) = .error .keyError :=
  (missing_element_behaviour "62" "p" (fun _ => some docHrefless) docHrefless "62"
      (by decide) rfl).2.2 (by decide) (by decide)

/-- C3 counterexample: a first block with name `A` and no
affiliation/country creates no entry, so a later block with the same name
is **not** ignored — its country `France` is what the mapping retains. -/
theorem coders_first_wins_counterexample :
    (get_coders [coderDivA1, coderDivA2]).lookup "A" =
      some ⟨none, some "France"⟩ ∧
    get_coders [coderDivA1] = [] := by decide

/-- C3 amended: the `coders` keys are unique, and the retained entry for
each name comes from the first document-order block that carries that name
together with at least one affiliation or country paragraph; blocks whose
name paragraph has neither contribute nothing and do not claim the name. -/
theorem coders_unique_first_contrib (doc : Document) :
    (keysOf (get_coders doc)).Nodup ∧
    ∀ name : String, (get_coders doc).lookup name =
      (((coderBlocks doc).filterMap blockEntry).find? fun p => p.1 == name).map
        Prod.snd := by
  constructor
  · exact coders_foldl_nodup (coderBlocks doc) [] (by simp [keysOf])
  · intro name
    have h := coders_foldl_lookup (coderBlocks doc) [] name
    unfold get_coders
    simpa using h

/-- C4: with every journal anchor carrying an `href`, the matching anchors
overwrite `legacyid` with their captured digits and the non-matching ones
overwrite `article_url`, so the last anchor of each kind wins. -/
theorem journal_last_anchor_wins (doc : Document) (sp : Node) (rest : List Node)
    (hs : journalSpans doc = sp :: rest)
    (hh : ∀ a ∈ anchorsOf sp, (getAttr a "href").isSome = true) :
    get_journal_data doc =
      .ok ⟨some (clean_text (textOf sp)), lastOr (hrefCaptures (anchorsOf sp)) none,
           lastOr (hrefNonMatches (anchorsOf sp)) none⟩ := by
  unfold get_journal_data
  rw [hs]
  exact journal_foldl _ _ hh

theorem journal_last_anchor_wins_witness :
    get_journal_data [Node.elem "div" [("id", "journal")] [span42]] =
      .ok ⟨some "Great Journal AbstractPaper", some "42",
           some "http://example.com/paper.pdf"⟩ := by
  rw [journal_last_anchor_wins [Node.elem "div" [("id", "journal")] [span42]]
    span42 [] rfl (by decide)]
  decide

/-- C5: a successful run returns one record per input path, in input
order: the i-th output is the extractor's result for the i-th path, and the
output is the empty mapping exactly at the positions whose path has no
digit run. -/
theorem driver_ordered_results (files : List String) (fs : String → Option Document)
    (out : List Record) (h : runDriver files fs = .ok out) :
    out.length = files.length ∧
    List.Forall₂ (fun fn r => snarf_file fn fn fs = .ok r ∧
      (firstDigitRun fn = none ↔ r = emptyRecord)) files out := by
  induction files generalizing out with
  | nil =>
    rw [runDriver] at h
    cases h
    exact ⟨rfl, List.Forall₂.nil⟩
  | cons fhead rest ih =>
    rw [runDriver] at h
    cases hs : snarf_file fhead fhead fs with
    | error e => rw [hs] at h; cases h
    | ok d =>
      rw [hs] at h
      cases hr : runDriver rest fs with
      | error e => rw [hr] at h; cases h
      | ok ds =>
        rw [hr] at h
        cases h
        obtain ⟨hlen, hall⟩ := ih ds hr
        refine ⟨by simpa using hlen, List.Forall₂.cons ⟨hs, ?_, ?_⟩ hall⟩
        · intro hnone
          have hempty := @snarf_none fhead fhead fs hnone
          rw [hs] at hempty
          cases hempty
          rfl
        · intro hempty
          have hleg := snarf_ok_legacy hs
          rw [hempty] at hleg
          exact hleg.symm

theorem driver_ordered_results_witness :
    out2.length = files2.length ∧
    List.Forall₂ (fun fn r => snarf_file fn fn fs42 = .ok r ∧
      (firstDigitRun fn = none ↔ r = emptyRecord)) files2 out2 :=
  driver_ordered_results files2 fs42 out2 (by decide)

/-- C6: if any file of the list makes `snarf_file` raise, the loop aborts
before `results.json` is opened, so no output is written. -/
theorem driver_fatal_atomicity (files : List String) (fs : String → Option Document)
    (bad : String) (e : PyErr) (hmem : bad ∈ files)
    (herr : snarf_file bad bad fs = .error e) :
    driverOutput files fs = none := by
  obtain ⟨e', he'⟩ := runDriver_error files fs bad e hmem herr
  unfold driverOutput
  rw [he']

theorem driver_fatal_atomicity_witness :
    driverOutput ["site.do?siteId=62"] (fun _ => none) = none :=
  driver_fatal_atomicity ["site.do?siteId=62"] (fun _ => none) "site.do?siteId=62"
    .ioError (by decide) (by decide)

/-- C7: `clean_text` collapses every whitespace run to one space and trims
the ends (its definition), and is idempotent. -/
theorem clean_text_idempotent (s : String) :
    clean_text (clean_text s) = clean_text s := by
  unfold clean_text
  obtain ⟨h1, h2, h3, h4⟩ :=
    pyStrip_props _ (subWS_wsOnlySpace false s.data) (subWS_noAdjWS false s.data)
  show (⟨pyStrip (subWS false (pyStrip (subWS false s.data)))⟩ : String) = _
  rw [subWS_id _ false h1 h2 (by simp), pyStrip_eq_self h3 h4]

/-- C8: the digit search in `snarf_file` reads the module-level `f`, not
the `fname` parameter: any successful result's `legacy_id` is the first
digit run of the global `f`, and two calls with the same `fname` and the
same file contents but different globals return different results. -/
theorem snarf_global_f_dependence :
    (∀ (f fname : String) (fs : String → Option Document) (rec : Record),
      snarf_file f fname fs = .ok rec → rec.legacy_id = firstDigitRun f) ∧
    snarf_file "site.do?siteId=62" "page.html" fs42 ≠
      snarf_file "nodigits" "page.html" fs42 := by
  constructor
  · intro f fname fs rec h
    exact snarf_ok_legacy h
  · decide

theorem snarf_global_f_dependence_witness :
    rec42full.legacy_id = firstDigitRun "site.do?siteId=62" :=
  snarf_global_f_dependence.1 "site.do?siteId=62" "page.html" fs42 rec42full
    (by decide)

/-- C9: a coder div with a name paragraph but neither an affiliation nor a
country paragraph leaves the accumulated mapping untouched: it contributes
no entry, and a name absent before the block stays absent after it. -/
theorem coder_block_no_info_no_entry (acc : List (String × CoderInfo)) (div : Node)
    (_hn : (selectTagClass div "p" "name").isEmpty = false)
    (ha : (selectTagClass div "p" "affiliation").isEmpty = true)
    (hc : (selectTagClass div "p" "country").isEmpty = true) :
    coderStep acc div = acc ∧
    ∀ name : String, (acc.lookup name).isNone = true →
      ((coderStep acc div).lookup name).isNone = true := by
  have hb : blockEntry div = none := by
    unfold blockEntry
    cases hsel : selectTagClass div "p" "name" with
    | nil => rfl
    | cons n0 r =>
      rw [List.isEmpty_iff] at ha hc
      rw [ha, hc]
  have heq := @coderStep_of_blockEntry_none acc div hb
  exact ⟨heq, fun name h => by rw [heq]; exact h⟩

theorem coder_block_no_info_no_entry_witness :
    coderStep [] coderDivA1 = [] :=
  (coder_block_no_info_no_entry [] coderDivA1 (by decide) (by decide) (by decide)).1

/-- C10: when no element matches `div#journal > span`, the resulting
record carries none of the keys `journal`, `legacyid`, `article_url`. -/
theorem no_journal_span_no_keys (f fname : String) (fs : String → Option Document)
    (doc : Document) (rec : Record) (hfs : fs fname = some doc)
    (hsp : (journalSpans doc).isEmpty = true) (hok : snarf_file f fname fs = .ok rec) :
    rec.journal = none ∧ rec.legacyid = none ∧ rec.article_url = none := by
  cases hd : firstDigitRun f with
  | none =>
    rw [snarf_none fname fs hd] at hok
    cases hok
    exact ⟨rfl, rfl, rfl⟩
  | some lid =>
    rw [snarf_some f fname fs lid doc hd hfs] at hok
    rw [List.isEmpty_iff] at hsp
    have hjd : get_journal_data doc = .ok ⟨none, none, none⟩ := by
      unfold get_journal_data
      rw [hsp]
    cases ht : findTitle doc with
    | none => rw [ht] at hok; cases hok
    | some t =>
      rw [ht, hjd] at hok
      cases hok
      exact ⟨rfl, rfl, rfl⟩

theorem no_journal_span_no_keys_witness :
    recMin.journal = none ∧ recMin.legacyid = none ∧ recMin.article_url = none :=
  no_journal_span_no_keys "62" "p" fsMin docMin recMin rfl (by decide) (by decide)
